import Mathlib

/-!
Verification of the Zuma planner core (src/ex2.py, class Controller).

Shallow embedding conventions:
* Colors and actions are integers (`ℤ`); the skip sentinel is `-1`.
* A line is a `List ℤ`; Python tuples/lists are both embedded as lists.
* Python floats are embedded as rationals (`ℚ`); the literals `0.1`, `0.2`,
  `0.5`, `0.8` in the source become `1/10`, `1/5`, `1/2`, `4/5`.
* The unbounded `while` loops of `_simulate_pop_cached` and the unbounded
  recursion of `evaluate_state_cached` are embedded with an explicit fuel
  parameter (structural recursion, hence kernel-computable); the wrapper
  definitions supply a fuel that the termination theorems prove sufficient,
  so the `Option.getD` defaults are never reached.
* The `lru_cache` decorations are semantically transparent (the functions are
  pure), so caching is not modelled.
-/

/-- The model-parameter tables read in `Controller.__init__` from
`game.get_model()`, together with the controller constants `gamma = 0.8` and
`max_depth = 2`.  Python dicts keyed by color become total functions `ℤ → ℚ`
(the claims under study never exercise a missing key). -/
structure Model where
  chosen_action_prob : ℤ → ℚ
  next_color_dist : ℤ → ℚ
  color_pop_prob : ℤ → ℚ
  /-- `color_pop_reward['3_pop']` -/
  pop3 : ℤ → ℚ
  /-- `color_pop_reward['extra_pop']` -/
  extraPop : ℤ → ℚ
  /-- `color_not_finished_punishment` -/
  punishment : ℤ → ℚ
  finished_reward : ℚ
  gamma : ℚ := 4/5
  max_depth : ℕ := 2

/-- `Controller.calcReward(amount, color)`:
`(base_reward + (amount - 3) * extra_reward) * (1.0 + 0.1 * max(0, amount - 3))`. -/
def calcReward (M : Model) (amount : ℕ) (color : ℤ) : ℚ :=
  (M.pop3 color + ((amount : ℚ) - 3) * M.extraPop color) *
    (1 + (1/10) * max 0 ((amount : ℚ) - 3))

/-- The inner `while j < len(sim_line) and sim_line[j] == sim_line[i]: j += 1`
of `_simulate_pop_cached`, with the remaining distance `l.length - j` made
explicit so the recursion is structural. -/
def runEndAux (l : List ℤ) (c : ℤ) : ℕ → ℕ → ℕ
  | 0, j => j
  | rem + 1, j => if l.getD j 0 = c then runEndAux l c rem (j + 1) else j

/-- Index one past the end of the run of color `c` starting at `j` in `l`. -/
def runEnd (l : List ℤ) (c : ℤ) (j : ℕ) : ℕ :=
  runEndAux l c (l.length - j) j

/-- The outer scan loop of `Controller._simulate_pop_cached`, with state
`(sim_line, end_idx, i, chains, reward)`.  `fuel` bounds the number of loop
iterations; `none` means the fuel ran out (shown impossible for the fuel used
by `simulateO`, see `popLoop_isSome`).  One removed run of length `count` and
color `c` adds `calcReward(count, c) * (1.0 + 0.2 * chains)` to the reward and
replaces the line by `l.take i ++ l.drop j`. -/
def popLoop (M : Model) : ℕ → List ℤ → ℤ → ℕ → ℕ → ℚ → Option (List ℤ × ℚ)
  | fuel, l, endIdx, i, chains, reward =>
    if (i : ℤ) < endIdx - 2 ∧ i + 2 < l.length then
      match fuel with
      | 0 => none
      | fuel + 1 =>
        if l.getD i 0 ≠ l.getD (i + 1) 0 ∨ l.getD i 0 ≠ l.getD (i + 2) 0 then
          popLoop M fuel l endIdx (i + 1) chains reward
        else
          let j := runEnd l (l.getD i 0) (i + 3)
          let count := j - i
          if 3 ≤ count then
            popLoop M fuel (l.take i ++ l.drop j) (endIdx - count) (i - 2) (chains + 1)
              (reward + calcReward M count (l.getD i 0) * (1 + (1/5) * chains))
          else
            popLoop M fuel l endIdx (i + 1) chains reward
    else some (l, reward)

/-- `Controller._simulate_pop_cached(line, action, ball)` before the final
defaulting: `some` of the settled `(line, reward)` pair, or `none` if the loop
fuel `l.length + 1` were insufficient (it never is, see `simulateO_isSome`).
Skip (`action = -1`) and out-of-range actions leave the line unchanged with
reward `0`;  a valid action inserts `ball` at index `action` and runs the scan
loop from `start_idx = max(0, action - 2)` with
`end_idx = min(len(sim_line), action + 3)`. -/
def simulateO (M : Model) (line : List ℤ) (action ball : ℤ) : Option (List ℤ × ℚ) :=
  if action = -1 then some (line, 0)
  else if 0 ≤ action ∧ action ≤ (line.length : ℤ) then
    let a := action.toNat
    let l := line.take a ++ ball :: line.drop a
    popLoop M (l.length + 1) l (min (l.length : ℤ) (action + 3)) (a - 2) 0 0
  else some (line, 0)

/-- `Controller._simulate_pop_cached` as a total function. -/
def simulate (M : Model) (line : List ℤ) (action ball : ℤ) : List ℤ × ℚ :=
  (simulateO M line action ball).getD (line, 0)

/-- The contribution of iteration `i` of the `for i in range(len(line))` loop
of `Controller._find_potential_moves` to the growing set of potential moves:
three independent `if` blocks (left-neighbor match, current-token match,
sandwich position). -/
def movesAt (line : List ℤ) (ball : ℤ) (i : ℕ) : Finset ℤ :=
  (if 0 < i ∧ line.getD (i - 1) 0 = ball then
      {(i : ℤ)} ∪ (if 1 < i then {(i : ℤ) - 1} else ∅) ∪
        (if i < line.length then {(i : ℤ) + 1} else ∅)
    else ∅) ∪
  (if i < line.length - 1 ∧ line.getD i 0 = ball then
      ({(i : ℤ), (i : ℤ) + 1} : Finset ℤ) ∪
        (if i < line.length - 2 then {(i : ℤ) + 2} else ∅)
    else ∅) ∪
  (if 0 < i ∧ i < line.length - 1 ∧ line.getD (i - 1) 0 = line.getD (i + 1) 0 then
      {(i : ℤ)}
    else ∅)

/-- `Controller._find_potential_moves(line, ball)`: starts from `{-1}`,
returns `{0}` early for an empty line, otherwise unions the contributions of
every loop iteration.  (A Python set; the union over iterations is exactly the
finally accumulated set.) -/
def find_potential_moves (line : List ℤ) (ball : ℤ) : Finset ℤ :=
  if line = [] then {0}
  else {-1} ∪ (Finset.range line.length).biUnion (movesAt line ball)

/-- The order in which `for action in potential_moves` visits a Python set is
an implementation detail of the interpreter; we fix the ascending order.  All
properties proved below about the iteration are order-independent. -/
def movesList (line : List ℤ) (ball : ℤ) : List ℤ :=
  (find_potential_moves line ball).sort (· ≤ ·)

/-- The `base_penalty` of `Controller.evaluate_state_cached`:
`-sum(punishment[color] * line.count(color) for color in unique_colors)`. -/
def basePenalty (M : Model) (l : List ℤ) : ℚ :=
  -(l.toFinset.sum fun c => M.punishment c * (l.count c : ℚ))

/-- The `future_potential` of `Controller.evaluate_state_cached`: `0.5` for
each index `i < len(line) - 1` with `line[i] == line[i+1]`. -/
def futurePotential (l : List ℤ) : ℚ :=
  (((List.range (l.length - 1)).filter fun i => l.getD i 0 = l.getD (i + 1) 0).length : ℚ)
    * (1/2)

/-- The terminal branch of `Controller.evaluate_state_cached` (taken when
`depth >= max_depth or not line_tuple`). -/
def terminalValue (M : Model) (l : List ℤ) : ℚ :=
  if l = [] then M.finished_reward else basePenalty M l + futurePotential l

/-- The `for action in potential_moves` loop of
`Controller.evaluate_state_cached`, abstracted over the evaluator `F` used for
the recursive call at `depth + 1`.  The accumulator `best` is `none` for the
initial `float('-inf')`.  An action whose simulated line is empty returns
`prob * (reward + gamma * finished_reward)` for the whole call; a `none` from
`F` (fuel exhaustion, never reached) aborts. -/
def evalLoop (M : Model) (F : List ℤ → Option ℚ) (line : List ℤ) (ball : ℤ) :
    List ℤ → Option ℚ → Option ℚ
  | [], best => best
  | a :: rest, best =>
    let prob := if a = -1 then 1 else M.chosen_action_prob ball
    let res := simulate M line a ball
    if res.1 = [] then some (prob * (res.2 + M.gamma * M.finished_reward))
    else
      match F res.1 with
      | none => none
      | some w =>
        let v := prob * (res.2 + M.gamma * w)
        evalLoop M F line ball rest
          (some (match best with | none => v | some b => max b v))

/-- `Controller.evaluate_state_cached(line, depth, ball)` with explicit fuel
bounding the recursion depth; every recursive call is at `depth + 1` with one
unit less fuel, and the terminal branch needs no fuel.  `evaluate` supplies
fuel `max_depth - depth`, proved sufficient in `evaluateF_isSome`. -/
def evaluateF (M : Model) (fuel : ℕ) (line : List ℤ) (depth : ℕ) (ball : ℤ) : Option ℚ :=
  if M.max_depth ≤ depth ∨ line = [] then some (terminalValue M line)
  else
    match fuel with
    | 0 => none
    | f + 1 =>
      evalLoop M (fun nl => evaluateF M f nl (depth + 1) ball) line ball
        (movesList line ball) none

/-- `Controller.evaluate_state_cached` as a total function. -/
def evaluate (M : Model) (line : List ℤ) (depth : ℕ) (ball : ℤ) : ℚ :=
  (evaluateF M (M.max_depth - depth) line depth ball).getD 0

/-- The `for action in potential_moves` loop of
`Controller.choose_next_action`, tracking `(best_action, best_value)` with
`best_value = none` for the initial `float('-inf')`.  An action whose
simulated line is empty is returned immediately. -/
def chooseLoop (M : Model) (line : List ℤ) (ball : ℤ) :
    List ℤ → ℤ → Option ℚ → ℤ
  | [], bestAction, _ => bestAction
  | a :: rest, bestAction, bestValue =>
    let prob := if a = -1 then 1 else M.chosen_action_prob ball
    let res := simulate M line a ball
    if res.1 = [] then a
    else
      let v := prob * (res.2 + M.gamma * evaluate M res.1 1 ball)
      if (match bestValue with | none => true | some b => decide (b < v)) = true then
        chooseLoop M line ball rest a (some v)
      else chooseLoop M line ball rest bestAction bestValue

/-- `Controller.choose_next_action`, with the turn context
`(line, ball, steps, max_steps)` read from `game.get_current_state()` made
explicit parameters.  Returns `-1` (skip) immediately when
`steps >= max_steps`. -/
def choose_next_action (M : Model) (line : List ℤ) (ball : ℤ)
    (steps maxSteps : ℕ) : ℤ :=
  if maxSteps ≤ steps then -1
  else chooseLoop M line ball (movesList line ball) (-1) none

/-- Trace variant of `popLoop`: identical control flow, but instead of
accumulating the reward it records each removed run as a pair
`(length, color)` in removal order. -/
def popLoopT (M : Model) : ℕ → List ℤ → ℤ → ℕ → ℕ → Option (List ℤ × List (ℕ × ℤ))
  | fuel, l, endIdx, i, chains =>
    if (i : ℤ) < endIdx - 2 ∧ i + 2 < l.length then
      match fuel with
      | 0 => none
      | fuel + 1 =>
        if l.getD i 0 ≠ l.getD (i + 1) 0 ∨ l.getD i 0 ≠ l.getD (i + 2) 0 then
          popLoopT M fuel l endIdx (i + 1) chains
        else
          let j := runEnd l (l.getD i 0) (i + 3)
          let count := j - i
          if 3 ≤ count then
            (popLoopT M fuel (l.take i ++ l.drop j) (endIdx - count) (i - 2)
                (chains + 1)).map
              fun p => (p.1, (count, l.getD i 0) :: p.2)
          else
            popLoopT M fuel l endIdx (i + 1) chains
    else some (l, [])

/-- The runs removed by `simulate M line action ball`, in removal order. -/
def runsOf (M : Model) (line : List ℤ) (action ball : ℤ) : List (ℕ × ℤ) :=
  if action = -1 then []
  else if 0 ≤ action ∧ action ≤ (line.length : ℤ) then
    let a := action.toNat
    let l := line.take a ++ ball :: line.drop a
    ((popLoopT M (l.length + 1) l (min (l.length : ℤ) (action + 3)) (a - 2) 0).getD
      (line, [])).2
  else []

/-- The reward the source pays for the run at chain position `k` (the number
of runs removed before it in the same `simulate` call), of length `n` and
color `c`, written out without reference to `calcReward`:
`(base3pop(c) + (n-3) * extraPop(c)) * (1 + 0.1 * (n-3)) * (1 + 0.2 * k)`. -/
def specRun (M : Model) (k n : ℕ) (c : ℤ) : ℚ :=
  (M.pop3 c + ((n : ℚ) - 3) * M.extraPop c) * (1 + (1/10) * ((n : ℚ) - 3))
    * (1 + (1/5) * (k : ℚ))

/-- Sum of `specRun` over a run list, with chain positions counted from `k`. -/
def specTotal (M : Model) (k : ℕ) : List (ℕ × ℤ) → ℚ
  | [] => 0
  | (n, c) :: rest => specRun M k n c + specTotal M (k + 1) rest

/-- The concrete model parameters of `test_ex2.example` (rewards and
probabilities as exact rationals), with the controller constants of
`Controller.__init__`. -/
def exModel : Model where
  chosen_action_prob := fun c =>
    if c = 1 then 3/5 else if c = 2 then 7/10 else if c = 3 then 1/2
    else if c = 4 then 9/10 else 0
  next_color_dist := fun c =>
    if c = 1 then 1/10 else if c = 2 then 3/5 else if c = 3 then 3/20
    else if c = 4 then 3/20 else 0
  color_pop_prob := fun c =>
    if c = 1 then 3/5 else if c = 2 then 7/10 else if c = 3 then 2/5
    else if c = 4 then 9/10 else 0
  pop3 := fun c =>
    if c = 1 then 3 else if c = 2 then 1 else if c = 3 then 2
    else if c = 4 then 2 else 0
  extraPop := fun c =>
    if c = 1 then 1 else if c = 2 then 2 else if c = 3 then 3
    else if c = 4 then 1 else 0
  punishment := fun c =>
    if c = 1 then 2 else if c = 2 then 3 else if c = 3 then 5
    else if c = 4 then 1 else 0
  finished_reward := 150

/-- A model with every per-color penalty positive but small (`1/5` for every
color); used to refute the sign assertion of the terminal heuristic. -/
def smallPenModel : Model :=
  { exModel with punishment := fun _ => 1/5 }

/-! ## Termination of the scan loop and of the evaluator -/

/-- The scan loop of `_simulate_pop_cached` halts before the fuel runs out
whenever the fuel is at least `(end_idx - i).toNat`: every iteration either
advances `i` by one or removes a run of length at least `3` (shrinking
`end_idx` by at least `3` while `i` backs up by at most `2`), so the measure
`end_idx - i` strictly decreases. -/
theorem popLoop_isSome (M : Model) :
    ∀ (fuel : ℕ) (l : List ℤ) (e : ℤ) (i ch : ℕ) (rw : ℚ),
      (e - i).toNat ≤ fuel → (popLoop M fuel l e i ch rw).isSome := by
  intro fuel
  induction fuel with
  | zero =>
    intro l e i ch rw h
    rw [popLoop]
    split
    · rename_i hg
      exfalso
      omega
    · simp
  | succ f ih =>
    intro l e i ch rw h
    rw [popLoop]
    split
    · rename_i hg
      split
      · exact ih _ _ _ _ _ (by omega)
      · dsimp only
        split
        · rename_i hcnt
          exact ih _ _ _ _ _ (by omega)
        · exact ih _ _ _ _ _ (by omega)
    · simp

/-- `_simulate_pop_cached` always terminates: the fuel `simulateO` supplies is
sufficient. -/
theorem simulateO_isSome (M : Model) (line : List ℤ) (action ball : ℤ) :
    (simulateO M line action ball).isSome := by
  unfold simulateO
  split
  · simp
  · split
    · apply popLoop_isSome
      simp only [List.length_append, List.length_take, List.length_cons,
        List.length_drop]
      omega
    · simp

/-- The candidate-move set is never empty: it contains `0` for the empty line
and `-1` (skip) otherwise. -/
theorem find_potential_moves_nonempty (line : List ℤ) (ball : ℤ) :
    (find_potential_moves line ball).Nonempty := by
  unfold find_potential_moves
  split
  · exact ⟨0, Finset.mem_singleton_self 0⟩
  · exact ⟨-1, Finset.mem_union_left _ (Finset.mem_singleton_self (-1))⟩

/-- The fixed enumeration of the candidate-move set is never the empty list. -/
theorem movesList_ne_nil (line : List ℤ) (ball : ℤ) : movesList line ball ≠ [] := by
  intro h
  obtain ⟨a, ha⟩ := find_potential_moves_nonempty line ball
  have hmem : a ∈ movesList line ball := by
    rw [movesList, Finset.mem_sort]
    exact ha
  rw [h] at hmem
  exact (List.not_mem_nil a) hmem

/-- The action loop of `evaluate_state_cached` produces a value whenever the
recursive evaluator it is given does and either the action list is non-empty
or a best value has already been recorded. -/
theorem evalLoop_isSome (M : Model) (F : List ℤ → Option ℚ) (line : List ℤ)
    (ball : ℤ) (hF : ∀ nl, (F nl).isSome) :
    ∀ (l : List ℤ) (best : Option ℚ), l ≠ [] ∨ best.isSome →
      (evalLoop M F line ball l best).isSome := by
  intro l
  induction l with
  | nil =>
    intro best h
    rcases h with h | h
    · exact absurd rfl h
    · rw [evalLoop]
      exact h
  | cons a rest ih =>
    intro best h
    rw [evalLoop]
    dsimp only
    split
    · simp
    · obtain ⟨w, hw⟩ := Option.isSome_iff_exists.mp (hF (simulate M line a ball).1)
      rw [hw]
      exact ih _ (Or.inr rfl)

/-- `evaluate_state_cached` terminates within `max_depth - depth` recursive
levels: every recursive call is at `depth + 1`, and the terminal branch fires
as soon as `depth` reaches `max_depth`. -/
theorem evaluateF_isSome (M : Model) :
    ∀ (fuel : ℕ) (line : List ℤ) (depth : ℕ) (ball : ℤ),
      M.max_depth - depth ≤ fuel → (evaluateF M fuel line depth ball).isSome := by
  intro fuel
  induction fuel with
  | zero =>
    intro line depth ball h
    rw [evaluateF]
    split
    · simp
    · rename_i hterm
      push_neg at hterm
      exfalso
      omega
  | succ f ih =>
    intro line depth ball h
    rw [evaluateF]
    split
    · simp
    · apply evalLoop_isSome
      · intro nl
        exact ih nl (depth + 1) ball (by omega)
      · exact Or.inl (movesList_ne_nil line ball)

/-- Claim C7: `simulate` always terminates (the scan-loop measure
`end_idx - i` strictly shrinks with every iteration, so the fuel
`simulateO` supplies is enough), and the evaluator terminates within at most
`max_depth - depth` recursive levels regardless of line length (every
recursive call increments `depth` by exactly one and the base case fires when
`depth` reaches `max_depth`): with exactly that much fuel, both return a
result. -/
theorem C7_termination (M : Model) (line : List ℤ) (action ball : ℤ) (depth : ℕ) :
    (∃ r, simulateO M line action ball = some r) ∧
    (∃ v, evaluateF M (M.max_depth - depth) line depth ball = some v) :=
  ⟨Option.isSome_iff_exists.mp (simulateO_isSome M line action ball),
   Option.isSome_iff_exists.mp (evaluateF_isSome M _ line depth ball le_rfl)⟩

/-- Concrete instance of `C7_termination`. -/
theorem C7_termination_witness :
    (∃ r, simulateO exModel [2, 1, 1, 2] 2 1 = some r) ∧
    (∃ v, evaluateF exModel (exModel.max_depth - 0) [2, 1, 1, 2] 0 1 = some v) :=
  C7_termination exModel [2, 1, 1, 2] 2 1 0

/-! ## Out-of-range actions (claim C2) -/

/-- Claim C2, corrected: a non-skip action outside `[0, len(line)]` does not
fail — the guard `0 <= action <= len(sim_line)` merely skips the insertion and
scan, so `simulate` returns the unchanged line with reward `0`. -/
theorem C2_out_of_range_is_noop (M : Model) (line : List ℤ) (action ball : ℤ)
    (hskip : action ≠ -1) (hout : action < 0 ∨ (line.length : ℤ) < action) :
    simulate M line action ball = (line, 0) := by
  have hc : ¬(0 ≤ action ∧ action ≤ (line.length : ℤ)) := by omega
  simp [simulate, simulateO, hskip, hc]

/-- Counterexample to claim C2 as stated: on line `[1,2]` with held color `1`
and the out-of-range action `5`, `simulate` returns the `(line, reward)`
result `([1,2], 0)` rather than failing — the code has no error path at all
(the embedding is a total function). -/
theorem C2_counterexample : simulate exModel [1, 2] 5 1 = ([1, 2], 0) := by decide

/-- Concrete instance of `C2_out_of_range_is_noop` at a different input. -/
theorem C2_witness : simulate exModel [3, 4] 7 2 = ([3, 4], 0) :=
  C2_out_of_range_is_noop exModel [3, 4] 7 2 (by decide) (Or.inr (by decide))

/-! ## Steps exhausted (claim C9) -/

/-- Claim C9: when `steps >= max_steps`, `choose_next_action` returns the skip
sentinel `-1` from its first statement, before the candidate set is built or
any action is simulated. -/
theorem C9_exhausted_returns_skip (M : Model) (line : List ℤ) (ball : ℤ)
    (steps maxSteps : ℕ) (h : maxSteps ≤ steps) :
    choose_next_action M line ball steps maxSteps = -1 := by
  simp [choose_next_action, h]

/-- Concrete instance of `C9_exhausted_returns_skip`. -/
theorem C9_witness : choose_next_action exModel [1, 2] 1 5 5 = -1 :=
  C9_exhausted_returns_skip exModel [1, 2] 1 5 5 (by decide)

/-! ## The spec's worked examples (claim C6) -/

set_option maxHeartbeats 2000000

/-- Claim C6: the three worked examples of the spec, for any model.  On
`[1,1]` inserting `1` at index `1` the new run of three pops for reward
`base3pop(1)` and the line empties; on `[1,2,1]` inserting `2` at index `2`
nothing pops and the 4-length line is returned with reward `0`; on
`[2,1,1,2]` inserting `1` at index `2` the `1,1,1` run pops and the rescan
visits the newly adjacent `2,2` (too short to pop), returning `[2,2]`. -/
theorem C6_worked_examples (M : Model) :
    simulate M [1, 1] 1 1 = ([], M.pop3 1) ∧
    simulate M [1, 2, 1] 2 2 = ([1, 2, 2, 1], 0) ∧
    simulate M [2, 1, 1, 2] 2 1 = ([2, 2], M.pop3 1) := by
  refine ⟨?_, ?_, ?_⟩ <;>
    simp [simulate, simulateO, popLoop, runEnd, runEndAux, calcReward]

/-- Concrete instance of `C6_worked_examples`. -/
theorem C6_witness :
    simulate exModel [1, 1] 1 1 = ([], exModel.pop3 1) ∧
    simulate exModel [1, 2, 1] 2 2 = ([1, 2, 2, 1], 0) ∧
    simulate exModel [2, 1, 1, 2] 2 1 = ([2, 2], exModel.pop3 1) :=
  C6_worked_examples exModel

/-! ## Empty line forces insertion at index 0 (claim C10) -/

/-- Claim C10: on an empty line the candidate set is exactly `{0}` (the skip
sentinel is excluded by the early return), and with steps remaining
`choose_next_action` inserts at index `0` — it never skips: the single
candidate's simulated line `[ball]` is non-empty, so its value beats the
initial `-inf` and `best_action` becomes `0`. -/
theorem C10_empty_line_inserts (M : Model) (ball : ℤ) (steps maxSteps : ℕ)
    (hs : steps < maxSteps) :
    find_potential_moves ([] : List ℤ) ball = {0} ∧
    choose_next_action M [] ball steps maxSteps = 0 := by
  refine ⟨rfl, ?_⟩
  unfold choose_next_action
  rw [if_neg (by omega)]
  have hml : movesList ([] : List ℤ) ball = [0] := by
    rw [movesList]
    have h0 : find_potential_moves ([] : List ℤ) ball = {0} := rfl
    rw [h0]
    exact Finset.sort_singleton _ _
  have hsim : simulate M [] 0 ball = ([ball], 0) := by
    norm_num [simulate, simulateO, popLoop]
  rw [hml, chooseLoop]
  simp only [hsim]
  rw [if_neg (by exact List.cons_ne_nil ball [])]
  simp only [if_true]
  rw [chooseLoop]

/-- Concrete instance of `C10_empty_line_inserts`. -/
theorem C10_witness :
    find_potential_moves ([] : List ℤ) 3 = {0} ∧
    choose_next_action exModel [] 3 0 1 = 0 :=
  C10_empty_line_inserts exModel 3 0 1 (by decide)

/-! ## The action loop of choose_next_action (claims C3 and C8) -/

/-- If some action in the remaining list simulates to the empty line, the
action loop of `choose_next_action` returns an action that simulates to the
empty line (the first such action encountered returns immediately; no later
comparison can overwrite it). -/
theorem chooseLoop_clears (M : Model) (line : List ℤ) (ball : ℤ) :
    ∀ (l : List ℤ) (ba : ℤ) (bv : Option ℚ),
      (∃ a ∈ l, (simulate M line a ball).1 = []) →
      (simulate M line (chooseLoop M line ball l ba bv) ball).1 = [] := by
  intro l
  induction l with
  | nil =>
    rintro ba bv ⟨a, ha, -⟩
    exact absurd ha (List.not_mem_nil a)
  | cons a rest ih =>
    rintro ba bv ⟨b, hb, hbe⟩
    rw [chooseLoop]
    dsimp only
    split
    · rename_i he
      exact he
    · rename_i hne
      have hbrest : b ∈ rest := by
        rcases List.mem_cons.mp hb with h | h
        · exact absurd (h ▸ hbe) hne
        · exact h
      repeat' split
      all_goals exact ih _ _ ⟨b, hbrest, hbe⟩

/-- Any property holding for the initial best action and for every listed
action holds for the action the loop returns. -/
theorem chooseLoop_prop (M : Model) (line : List ℤ) (ball : ℤ) (P : ℤ → Prop) :
    ∀ (l : List ℤ) (ba : ℤ) (bv : Option ℚ), (∀ a ∈ l, P a) → P ba →
      P (chooseLoop M line ball l ba bv) := by
  intro l
  induction l with
  | nil =>
    intro ba bv _ hba
    rw [chooseLoop]
    exact hba
  | cons a rest ih =>
    intro ba bv hl hba
    rw [chooseLoop]
    dsimp only
    split
    · exact hl a (List.mem_cons_self a rest)
    · repeat' split
      all_goals
        first
        | exact ih _ _ (fun x hx => hl x (List.mem_cons_of_mem a hx))
            (hl a (List.mem_cons_self a rest))
        | exact ih _ _ (fun x hx => hl x (List.mem_cons_of_mem a hx)) hba

/-- Claim C3: with steps remaining, non-negative discount and non-negative
terminal bonus, whenever some candidate action's simulated result is the empty
line, the action `choose_next_action` returns also simulates to the empty
line — never a lower-reward alternative.  (The guarantee in fact needs neither
sign hypothesis: the empty-line short-circuit fires before any value is
compared.) -/
theorem C3_clear_short_circuit (M : Model) (line : List ℤ) (ball : ℤ)
    (steps maxSteps : ℕ) (hs : steps < maxSteps)
    (_hg : 0 ≤ M.gamma) (_hf : 0 ≤ M.finished_reward)
    (hex : ∃ a ∈ find_potential_moves line ball, (simulate M line a ball).1 = []) :
    (simulate M line (choose_next_action M line ball steps maxSteps) ball).1 = [] := by
  unfold choose_next_action
  rw [if_neg (by omega)]
  apply chooseLoop_clears
  obtain ⟨a, ha, hae⟩ := hex
  refine ⟨a, ?_, hae⟩
  rw [movesList, Finset.mem_sort]
  exact ha

/-- Concrete instance of `C3_clear_short_circuit`: on line `[1,1]` holding
color `1`, inserting at index `0` empties the line, and the returned action
does empty the line. -/
theorem C3_witness :
    (simulate exModel [1, 1] (choose_next_action exModel [1, 1] 1 0 20) 1).1 = [] :=
  C3_clear_short_circuit exModel [1, 1] 1 0 20 (by decide) (by norm_num [exModel])
    (by norm_num [exModel]) ⟨0, by decide, by decide⟩

/-- Every element the loop of `_find_potential_moves` adds at iteration
`i < len(line)` is an insertion index in `[0, len(line)]`. -/
theorem movesAt_valid (line : List ℤ) (ball : ℤ) (i : ℕ) (hi : i < line.length) :
    ∀ a ∈ movesAt line ball i, 0 ≤ a ∧ a ≤ (line.length : ℤ) := by
  intro a ha
  unfold movesAt at ha
  split_ifs at ha <;>
    simp only [Finset.mem_union, Finset.mem_insert, Finset.mem_singleton,
      Finset.not_mem_empty, or_false, false_or] at ha <;>
    (repeat' rcases ha with ha | ha) <;> omega

/-- Every candidate move is the skip sentinel or an in-range insertion
index. -/
theorem moves_valid (line : List ℤ) (ball : ℤ) :
    ∀ a ∈ find_potential_moves line ball,
      a = -1 ∨ (0 ≤ a ∧ a ≤ (line.length : ℤ)) := by
  intro a ha
  unfold find_potential_moves at ha
  split_ifs at ha with hnil
  · right
    simp only [Finset.mem_singleton] at ha
    subst ha
    simp
  · rcases Finset.mem_union.mp ha with h | h
    · left
      simpa using h
    · right
      obtain ⟨i, hi, hmem⟩ := Finset.mem_biUnion.mp h
      rw [Finset.mem_range] at hi
      exact movesAt_valid line ball i hi a hmem

/-- Claim C8: with steps remaining, `choose_next_action` returns either the
skip sentinel `-1` or an insertion index in `[0, len(line)]`, never an
out-of-range index: the initial best action is `-1` and every candidate it
could return lies in range. -/
theorem C8_action_in_range (M : Model) (line : List ℤ) (ball : ℤ)
    (steps maxSteps : ℕ) (hs : steps < maxSteps) :
    choose_next_action M line ball steps maxSteps = -1 ∨
      (0 ≤ choose_next_action M line ball steps maxSteps ∧
        choose_next_action M line ball steps maxSteps ≤ (line.length : ℤ)) := by
  unfold choose_next_action
  rw [if_neg (by omega)]
  apply chooseLoop_prop M line ball
    (fun a => a = -1 ∨ (0 ≤ a ∧ a ≤ (line.length : ℤ)))
  · intro a ha
    apply moves_valid line ball
    rwa [movesList, Finset.mem_sort] at ha
  · left
    rfl

/-- Concrete instance of `C8_action_in_range`. -/
theorem C8_witness :
    choose_next_action exModel [1, 1] 1 0 1 = -1 ∨
      (0 ≤ choose_next_action exModel [1, 1] 1 0 1 ∧
        choose_next_action exModel [1, 1] 1 0 1 ≤ (([1, 1] : List ℤ).length : ℤ)) :=
  C8_action_in_range exModel [1, 1] 1 0 1 (by decide)

/-! ## The candidate set and same-color adjacency (claim C4) -/

/-- Counterexample to claim C4 as stated: on the non-empty line `[1]` with
held color `1`, both insertion indices `0` and `1` are adjacent to the
same-colored token at position `0`, yet neither is in the candidate set (which
is just `{-1}`): the loop's conditions `i > 0 and line[i-1] == ball` and
`i < len(line) - 1 and line[i] == ball` both fail at the final position. -/
theorem C4_counterexample :
    ([1] : List ℤ) ≠ [] ∧ ([1] : List ℤ).getD 0 0 = 1 ∧
    (0 : ℤ) ∉ find_potential_moves [1] 1 ∧
    (1 : ℤ) ∉ find_potential_moves [1] 1 := by
  decide

/-- Claim C4, corrected: for a non-empty line the candidate set always
contains the skip sentinel, and for every held-color token at a non-final
position `k` (`k + 1 < len(line)`) it contains both adjacent insertion
indices `k` and `k + 1`; adjacency provided only by a held-color token at the
final position is not guaranteed (see `C4_counterexample`). -/
theorem C4_adjacent_moves_kept (line : List ℤ) (ball : ℤ) (k : ℕ)
    (hk : k + 1 < line.length) (hcol : line.getD k 0 = ball) :
    -1 ∈ find_potential_moves line ball ∧
    (k : ℤ) ∈ find_potential_moves line ball ∧
    ((k : ℤ) + 1) ∈ find_potential_moves line ball := by
  have hne : line ≠ [] := by
    intro h
    rw [h] at hk
    simp at hk
  have hcond : k < line.length - 1 ∧ line.getD k 0 = ball := ⟨by omega, hcol⟩
  have hmem : ∀ x : ℤ, x ∈ ({(k : ℤ), (k : ℤ) + 1} : Finset ℤ) →
      x ∈ find_potential_moves line ball := by
    intro x hx
    unfold find_potential_moves
    rw [if_neg hne]
    apply Finset.mem_union_right
    apply Finset.mem_biUnion.mpr
    refine ⟨k, Finset.mem_range.mpr (by omega), ?_⟩
    unfold movesAt
    apply Finset.mem_union_left
    apply Finset.mem_union_right
    rw [if_pos hcond]
    exact Finset.mem_union_left _ hx
  refine ⟨?_, ?_, ?_⟩
  · unfold find_potential_moves
    rw [if_neg hne]
    exact Finset.mem_union_left _ (Finset.mem_singleton_self (-1))
  · exact hmem _ (Finset.mem_insert_self _ _)
  · exact hmem _ (Finset.mem_insert_of_mem (Finset.mem_singleton_self _))

/-- Concrete instance of `C4_adjacent_moves_kept`: on `[1, 2]` with held
color `1`, the token at position `0` matches, so `-1`, `0` and `1` are all
candidates. -/
theorem C4_witness :
    -1 ∈ find_potential_moves [1, 2] 1 ∧
    ((0 : ℕ) : ℤ) ∈ find_potential_moves [1, 2] 1 ∧
    (((0 : ℕ) : ℤ) + 1) ∈ find_potential_moves [1, 2] 1 :=
  C4_adjacent_moves_kept [1, 2] 1 0 (by decide) (by decide)

/-! ## The terminal heuristic (claim C5) -/

/-- At terminal depth on a non-empty line, the evaluator returns exactly
`base_penalty + future_potential`. -/
theorem evaluate_terminal (M : Model) (line : List ℤ) (depth : ℕ) (ball : ℤ)
    (hd : M.max_depth ≤ depth) (hne : line ≠ []) :
    evaluate M line depth ball = basePenalty M line + futurePotential line := by
  unfold evaluate evaluateF
  rw [if_pos (Or.inl hd)]
  unfold terminalValue
  rw [if_neg hne]
  rfl

/-- Counterexample to claim C5 as stated: in `smallPenModel` every per-color
penalty is the positive constant `1/5`, yet the terminal value of the
non-empty line `[1,1]` is `-2/5 + 1/2 = 1/10 > 0` — the adjacent-equal-pair
bonus of `0.5` per pair can flip the sign of the result. -/
theorem C5_counterexample :
    smallPenModel.max_depth ≤ 2 ∧ ([1, 1] : List ℤ) ≠ [] ∧
    smallPenModel.punishment 1 = 1/5 ∧
    (0 : ℚ) < evaluate smallPenModel [1, 1] 2 1 := by
  refine ⟨by decide, by decide, by norm_num [smallPenModel], ?_⟩
  rw [evaluate_terminal smallPenModel [1, 1] 2 1 (by decide) (by decide)]
  norm_num [basePenalty, futurePotential, smallPenModel, exModel, List.range_succ]

/-- Claim C5, corrected: at terminal depth (`depth ≥ max_depth`) on a
non-empty line the evaluator returns the negative penalty sum plus `0.5` per
adjacent equal-colored pair, and whenever every per-color penalty of a color
occurring in the line is at least `1/2`, that value is negative (the bonus is
at most `(len-1)/2` while the penalty sum is at least `len/2`).  For merely
positive penalties the bonus can change the sign (see
`C5_counterexample`). -/
theorem C5_terminal_penalty (M : Model) (line : List ℤ) (depth : ℕ) (ball : ℤ)
    (hd : M.max_depth ≤ depth) (hne : line ≠ [])
    (hpen : ∀ c ∈ line, 1/2 ≤ M.punishment c) :
    evaluate M line depth ball = basePenalty M line + futurePotential line ∧
    evaluate M line depth ball < 0 := by
  refine ⟨evaluate_terminal M line depth ball hd hne, ?_⟩
  rw [evaluate_terminal M line depth ball hd hne]
  have hlen : 1 ≤ line.length := List.length_pos.mpr hne
  have hsum : (line.length : ℚ) * (1/2) ≤
      line.toFinset.sum fun c => M.punishment c * (line.count c : ℚ) := by
    have hcnt : (line.toFinset.sum fun c => ((line.count c : ℚ) * (1/2))) =
        (line.length : ℚ) * (1/2) := by
      rw [← Finset.sum_mul]
      congr 1
      rw [← Nat.cast_sum]
      have hc : (line.toFinset.sum fun c => line.count c) = line.length := by
        have h0 := Multiset.toFinset_sum_count_eq (line : Multiset ℤ)
        simp only [Multiset.coe_count, Multiset.coe_card] at h0
        exact h0
      exact_mod_cast congrArg (Nat.cast : ℕ → ℚ) hc
    rw [← hcnt]
    apply Finset.sum_le_sum
    intro c hc
    have hc' : c ∈ line := List.mem_toFinset.mp hc
    have : (1/2 : ℚ) * (line.count c : ℚ) ≤ M.punishment c * (line.count c : ℚ) := by
      apply mul_le_mul_of_nonneg_right (hpen c hc')
      positivity
    linarith
  have hfp : futurePotential line ≤ ((line.length : ℚ) - 1) * (1/2) := by
    unfold futurePotential
    have hle : (((List.range (line.length - 1)).filter
        fun i => line.getD i 0 = line.getD (i + 1) 0).length : ℚ) ≤
        ((line.length - 1 : ℕ) : ℚ) := by
      have := List.length_filter_le
        (fun i => decide (line.getD i 0 = line.getD (i + 1) 0))
        (List.range (line.length - 1))
      rw [List.length_range] at this
      exact_mod_cast this
    have hcast : ((line.length - 1 : ℕ) : ℚ) = (line.length : ℚ) - 1 := by
      have : 1 ≤ line.length := hlen
      push_cast [Nat.cast_sub this]
      ring
    nlinarith
  unfold basePenalty
  have hlen' : (1 : ℚ) ≤ (line.length : ℚ) := by exact_mod_cast hlen
  linarith

/-! ## Per-run rewards (claim C1) -/

/-- For a run of length at least `3`, `calcReward` times the chain bonus is
exactly the spec-style closed formula `specRun`. -/
theorem calcReward_spec (M : Model) (n ch : ℕ) (c : ℤ) (h : 3 ≤ n) :
    calcReward M n c * (1 + (1/5) * (ch : ℚ)) = specRun M ch n c := by
  unfold calcReward specRun
  have hmax : max 0 ((n : ℚ) - 3) = (n : ℚ) - 3 := by
    apply max_eq_right
    have h3 : (3 : ℚ) ≤ (n : ℚ) := by exact_mod_cast h
    linarith
  rw [hmax]

/-- The scan loop's accumulated reward is the starting reward plus the sum of
`specRun` over the runs its trace records (chain positions counted from the
starting `chains`), and every recorded run has length at least `3`. -/
theorem popLoop_trace (M : Model) :
    ∀ (fuel : ℕ) (l : List ℤ) (e : ℤ) (i ch : ℕ) (rw : ℚ) (l2 : List ℤ) (r : ℚ),
      popLoop M fuel l e i ch rw = some (l2, r) →
      ∃ runs, popLoopT M fuel l e i ch = some (l2, runs) ∧
        r = rw + specTotal M ch runs ∧ ∀ p ∈ runs, 3 ≤ p.1 := by
  intro fuel
  induction fuel with
  | zero =>
    intro l e i ch rw l2 r h
    rw [popLoop] at h
    rw [popLoopT]
    by_cases hg : (i : ℤ) < e - 2 ∧ i + 2 < l.length
    · rw [if_pos hg] at h
      simp at h
    · rw [if_neg hg] at h
      rw [if_neg hg]
      simp only [Option.some.injEq, Prod.mk.injEq] at h
      obtain ⟨hl, hr⟩ := h
      exact ⟨[], by rw [hl], by rw [← hr]; simp [specTotal], by simp⟩
  | succ f ih =>
    intro l e i ch rw l2 r h
    rw [popLoop] at h
    rw [popLoopT]
    by_cases hg : (i : ℤ) < e - 2 ∧ i + 2 < l.length
    · rw [if_pos hg] at h
      rw [if_pos hg]
      dsimp only at h ⊢
      by_cases hmis : l.getD i 0 ≠ l.getD (i + 1) 0 ∨ l.getD i 0 ≠ l.getD (i + 2) 0
      · rw [if_pos hmis] at h
        rw [if_pos hmis]
        exact ih _ _ _ _ _ _ _ h
      · rw [if_neg hmis] at h
        rw [if_neg hmis]
        by_cases hcnt : 3 ≤ runEnd l (l.getD i 0) (i + 3) - i
        · rw [if_pos hcnt] at h
          rw [if_pos hcnt]
          obtain ⟨runs', hT, hsum, h3⟩ := ih _ _ _ _ _ _ _ h
          refine ⟨(runEnd l (l.getD i 0) (i + 3) - i, l.getD i 0) :: runs', ?_, ?_, ?_⟩
          · rw [hT]
            rfl
          · rw [hsum, specTotal, ← calcReward_spec M _ ch _ hcnt]
            ring
          · intro p hp
            rcases List.mem_cons.mp hp with hp | hp
            · rw [hp]
              exact hcnt
            · exact h3 p hp
        · rw [if_neg hcnt] at h
          rw [if_neg hcnt]
          exact ih _ _ _ _ _ _ _ h
    · rw [if_neg hg] at h
      rw [if_neg hg]
      simp only [Option.some.injEq, Prod.mk.injEq] at h
      obtain ⟨hl, hr⟩ := h
      exact ⟨[], by rw [hl], by rw [← hr]; simp [specTotal], by simp⟩

/-- Counterexample to claim C1 as stated: inserting color `1` at index `0`
of `[1,1,1]` removes a single run of length `4`, for which the claimed
formula gives `base3pop(1) + 1 * extraPop(1) = 3 + 1 = 4`, but the code
multiplies in the 10%-per-extra-ball bonus of `calcReward` and returns
`4 * 1.1 = 22/5 ≠ 4`. -/
theorem C1_counterexample :
    runsOf exModel [1, 1, 1] 0 1 = [(4, 1)] ∧
    (simulate exModel [1, 1, 1] 0 1).2 = 22/5 ∧
    exModel.pop3 1 + ((4 : ℚ) - 3) * exModel.extraPop 1 = 4 ∧
    (22/5 : ℚ) ≠ 4 := by
  refine ⟨by decide, ?_, by norm_num [exModel], by norm_num⟩
  norm_num [simulate, simulateO, popLoop, runEnd, runEndAux, calcReward, exModel]

/-- Claim C1, corrected: the reward for the `k`-th removed run (counting the
runs removed earlier in the same `simulate` call) of length `n` and color `c`
is `(base3pop(c) + (n-3) * extraPop(c)) * (1 + 0.1 * (n-3)) * (1 + 0.2 * k)`
— the plain `base3pop + (n-3) * extraPop` of the claim times the size-bonus
multiplier of `calcReward` and the chain-bonus multiplier of the scan loop —
and the total reward returned by `simulate` is the sum of these per-run
rewards over the removed runs (every one of length at least `3`). -/
theorem C1_run_reward_sum (M : Model) (line : List ℤ) (action ball : ℤ) :
    (simulate M line action ball).2 = specTotal M 0 (runsOf M line action ball) ∧
    ∀ p ∈ runsOf M line action ball, 3 ≤ p.1 := by
  unfold simulate simulateO runsOf
  split_ifs with hskip hval
  · simp [specTotal]
  · dsimp only
    generalize line.take action.toNat ++ ball :: line.drop action.toNat = l
    obtain ⟨⟨l2, r⟩, hr⟩ := Option.isSome_iff_exists.mp
      (popLoop_isSome M (l.length + 1) l (min (l.length : ℤ) (action + 3))
        (action.toNat - 2) 0 0 (by omega))
    obtain ⟨runs, hT, hsum, h3⟩ := popLoop_trace M _ _ _ _ _ _ _ _ hr
    rw [hr, hT]
    simp only [Option.getD_some]
    exact ⟨by rw [hsum, zero_add], h3⟩
  · simp [specTotal]

/-- Concrete instance of `C1_run_reward_sum`. -/
theorem C1_witness :
    (simulate exModel [1, 1, 1] 0 1).2 =
      specTotal exModel 0 (runsOf exModel [1, 1, 1] 0 1) :=
  (C1_run_reward_sum exModel [1, 1, 1] 0 1).1

/-- Concrete instance of `C5_terminal_penalty`: with the penalties of the
test model (all at least `1/2`) the terminal value of `[1,1]` is
`-4 + 1/2 = -7/2 < 0`. -/
theorem C5_witness :
    evaluate exModel [1, 1] 2 1 = basePenalty exModel [1, 1] + futurePotential [1, 1] ∧
    evaluate exModel [1, 1] 2 1 < 0 :=
  C5_terminal_penalty exModel [1, 1] 2 1 (by decide) (by decide)
    (by
      intro c hc
      simp at hc
      subst hc
      norm_num [exModel])
